import Mathlib

/-!
Verification of the dumbcas storage engine: a shallow embedding of the
content-addressed blob store (`casTable`), its self-healing enumeration,
the garbage collector (`gcRun.main` / `TagRecurse`), the fsck protocol
and the command entry gate (`CommonFlag`), together with proofs of the
specification's claims about them.

Sources embedded: `cas.go` (casTable: filePath, Enumerate, AddEntry, Open,
Remove, NeedFsck/WarnIfFsckIsNeeded), `gc.go` (TagRecurse, gcRun.main),
`main.go` (CommonFlag, sha1Bytes).  Components of the repository that are
not present in the provided sources (the Trash implementation, the Node
store, LoadEntry and the fsck command body) are modelled from the spec and
marked as such in their doc comments.
-/

set_option maxHeartbeats 1000000
set_option maxRecDepth 8000

namespace Dumbcas

/-- A byte, 0..255, and byte sequences, as blob contents. -/
abbrev Bytes := List Nat

/-- A digest is a string (syntactic validity is checked separately). -/
abbrev Digest := String

/-- One character of the class `[a-f0-9]` used by every path-validating
regular expression in `cas.go`. -/
def isHexChar (c : Char) : Bool :=
  ('a' ≤ c && c ≤ 'f') || ('0' ≤ c && c ≤ '9')

/-- `hexLen n s` is the Go regular expression `^[a-f0-9]{n}$` applied to
`s`: exactly `n` characters, all lowercase hex. -/
def hexLen (n : Nat) (s : String) : Bool :=
  s.data.length == n && s.data.all isHexChar

/-- `hashLength = 40` from `cas.go`. -/
def hashLength : Nat := 40

/-- `splitAt = 3` from `cas.go`: length of the shard-directory names. -/
def splitAt3 : Nat := 3

/-- `casTable.validPath`, the regular expression `^([a-f0-9]{40})$`. -/
def validDigest (s : String) : Bool := hexLen hashLength s

/-- `rePrefix` in `casTable.Enumerate`: `^[a-f0-9]{3}$` over shard names. -/
def validShard (s : String) : Bool := hexLen splitAt3 s

/-- `reRest` in `casTable.Enumerate`: `^[a-f0-9]{37}$` over item names. -/
def validItem (s : String) : Bool := hexLen (hashLength - splitAt3) s

/-- Modelled from the spec: the name of the Trash quarantine directory
created by `MakeTrash(casDir)` (trash.go is not among the sources); the
trash lives directly under the cas directory, so its name appears in the
shard-directory listing. -/
def TrashName : String := "trash"

/-- The on-disk state of one store directory (`casDir` or the node store
root): the shard directories with their files, the set of paths that have
been moved to trash, and the persisted `need_fsck` marker. -/
structure CasFs where
  dirs : List (String × List (String × Bytes))
  trashed : List String
  needFsck : Bool
  deriving DecidableEq

/-- The outcome of one pass of the enumeration walk over the shard
directories: the surviving directory tree, the yielded digests, and the
relative paths moved to trash during the walk. -/
structure EnumOut where
  dirs : List (String × List (String × Bytes))
  items : List String
  trashed : List String
  deriving DecidableEq

/-- The inner loop of `casTable.Enumerate` over one shard directory
`pfx`: an item whose name fails `reRest` is moved to trash
(`trash.Move(path.Join(prefix, item))`), a valid item is yielded as
`prefix + item`. Returns surviving items, yielded digests, trashed
paths. -/
def enumShard (pfx : String) :
    List (String × Bytes) → List (String × Bytes) × List String × List String
  | [] => ([], [], [])
  | (name, content) :: rest =>
    let (surv, ys, tr) := enumShard pfx rest
    if validItem name then ((name, content) :: surv, (pfx ++ name) :: ys, tr)
    else (surv, ys, (pfx ++ "/" ++ name) :: tr)

/-- The outer loop of `casTable.Enumerate` over the listing of `casDir`:
the trash directory is skipped, a name failing `rePrefix` is moved to
trash whole, a valid shard is walked by `enumShard`. -/
def enumDirs : List (String × List (String × Bytes)) → EnumOut
  | [] => ⟨[], [], []⟩
  | (pfx, items) :: rest =>
    let o := enumDirs rest
    if pfx = TrashName then ⟨(pfx, items) :: o.dirs, o.items, o.trashed⟩
    else if validShard pfx then
      let (surv, ys, tr) := enumShard pfx items
      ⟨(pfx, surv) :: o.dirs, ys ++ o.items, tr ++ o.trashed⟩
    else ⟨o.dirs, o.items, pfx :: o.trashed⟩

/-- `casTable.Enumerate`: walks the shard directories, self-healing as it
goes; every `trash.Move` in the walk is paired with `c.NeedFsck()`, so the
persisted marker ends up set exactly when something was quarantined.
Returns the updated store state and the stream of yielded digests. -/
def casEnumerate (fs : CasFs) : CasFs × List String :=
  let o := enumDirs fs.dirs
  (⟨o.dirs, fs.trashed ++ o.trashed, fs.needFsck || !o.trashed.isEmpty⟩, o.items)

/-! ### Characterization of the self-healing enumeration -/

theorem enumShard_eq (pfx : String) (items : List (String × Bytes)) :
    enumShard pfx items =
      (items.filter (fun e => validItem e.1),
       (items.filter (fun e => validItem e.1)).map (fun e => pfx ++ e.1),
       (items.filter (fun e => !validItem e.1)).map (fun e => pfx ++ "/" ++ e.1)) := by
  induction items with
  | nil => rfl
  | cons e rest ih =>
    cases e with
    | mk name content =>
      by_cases h : validItem name
      · simp [enumShard, ih, h, List.filter_cons]
      · simp only [Bool.not_eq_true] at h
        simp [enumShard, ih, h, List.filter_cons]

theorem enumDirs_dirs_eq (dirs : List (String × List (String × Bytes))) :
    (enumDirs dirs).dirs = dirs.filterMap (fun q =>
      if q.1 = TrashName then some q
      else if validShard q.1 then some (q.1, q.2.filter (fun e => validItem e.1))
      else none) := by
  induction dirs with
  | nil => rfl
  | cons q rest ih =>
    cases q with
    | mk pfx items =>
      by_cases ht : pfx = TrashName
      · simp [enumDirs, ht, List.filterMap_cons, ih]
      · by_cases hs : validShard pfx
        · simp [enumDirs, ht, hs, enumShard_eq, List.filterMap_cons, ih]
        · simp only [Bool.not_eq_true] at hs
          simp [enumDirs, ht, hs, List.filterMap_cons, ih]

theorem enumDirs_items_eq (dirs : List (String × List (String × Bytes))) :
    (enumDirs dirs).items = dirs.flatMap (fun q =>
      if q.1 = TrashName then []
      else if validShard q.1 then
        (q.2.filter (fun e => validItem e.1)).map (fun e => q.1 ++ e.1)
      else []) := by
  induction dirs with
  | nil => rfl
  | cons q rest ih =>
    cases q with
    | mk pfx items =>
      by_cases ht : pfx = TrashName
      · simp [enumDirs, ht, List.flatMap_cons, ih]
      · by_cases hs : validShard pfx
        · simp [enumDirs, ht, hs, enumShard_eq, List.flatMap_cons, ih]
        · simp only [Bool.not_eq_true] at hs
          simp [enumDirs, ht, hs, List.flatMap_cons, ih]

theorem enumDirs_trashed_eq (dirs : List (String × List (String × Bytes))) :
    (enumDirs dirs).trashed = dirs.flatMap (fun q =>
      if q.1 = TrashName then []
      else if validShard q.1 then
        (q.2.filter (fun e => !validItem e.1)).map (fun e => q.1 ++ "/" ++ e.1)
      else [q.1]) := by
  induction dirs with
  | nil => rfl
  | cons q rest ih =>
    cases q with
    | mk pfx items =>
      by_cases ht : pfx = TrashName
      · simp [enumDirs, ht, List.flatMap_cons, ih]
      · by_cases hs : validShard pfx
        · simp [enumDirs, ht, hs, enumShard_eq, List.flatMap_cons, ih]
        · simp only [Bool.not_eq_true] at hs
          simp [enumDirs, ht, hs, List.flatMap_cons, ih]

theorem needFsck_of_trashed (fs : CasFs) (p : String)
    (h : p ∈ (enumDirs fs.dirs).trashed) : ((casEnumerate fs).1).needFsck = true := by
  cases htr : (enumDirs fs.dirs).trashed with
  | nil => rw [htr] at h; cases h
  | cons a t => simp [casEnumerate, htr]

/-- C3: `Enumerate` quarantines corruption as a side effect of listing:
every shard-directory name failing the 3-hex pattern and every item name
failing the 37-hex pattern is moved to Trash and sets the consistency
flag, enumeration continues (exactly the structurally valid entries are
yielded, nothing quarantined among them), and valid entries elsewhere
survive unmodified in the store. -/
theorem enumerate_self_heals (fs : CasFs) :
    (∀ pfx items, (pfx, items) ∈ fs.dirs → pfx ≠ TrashName → validShard pfx = false →
      pfx ∈ (enumDirs fs.dirs).trashed ∧ ((casEnumerate fs).1).needFsck = true) ∧
    (∀ pfx items name b, (pfx, items) ∈ fs.dirs → validShard pfx = true →
      (name, b) ∈ items → validItem name = false →
      (pfx ++ "/" ++ name) ∈ (enumDirs fs.dirs).trashed ∧
      ((casEnumerate fs).1).needFsck = true) ∧
    ((casEnumerate fs).2 = fs.dirs.flatMap (fun q =>
      if q.1 = TrashName then []
      else if validShard q.1 then
        (q.2.filter (fun e => validItem e.1)).map (fun e => q.1 ++ e.1)
      else [])) ∧
    (∀ pfx items name b, (pfx, items) ∈ fs.dirs → validShard pfx = true →
      (name, b) ∈ items → validItem name = true →
      (pfx, items.filter (fun e => validItem e.1)) ∈ ((casEnumerate fs).1).dirs ∧
      (name, b) ∈ items.filter (fun e => validItem e.1)) := by
  refine ⟨?_, ?_, ?_, ?_⟩
  · intro pfx items hmem ht hs
    have htr : pfx ∈ (enumDirs fs.dirs).trashed := by
      rw [enumDirs_trashed_eq]
      refine List.mem_flatMap.mpr ⟨(pfx, items), hmem, ?_⟩
      simp [ht, hs]
    exact ⟨htr, needFsck_of_trashed fs pfx htr⟩
  · intro pfx items name b hmem hs hitem hbad
    have ht : pfx ≠ TrashName := by
      intro h
      rw [h] at hs
      exact absurd hs (by decide)
    have htr : (pfx ++ "/" ++ name) ∈ (enumDirs fs.dirs).trashed := by
      rw [enumDirs_trashed_eq]
      refine List.mem_flatMap.mpr ⟨(pfx, items), hmem, ?_⟩
      simp only [ht, if_false, hs, if_true]
      exact List.mem_map.mpr ⟨(name, b), List.mem_filter.mpr ⟨hitem, by simp [hbad]⟩, rfl⟩
    exact ⟨htr, needFsck_of_trashed fs _ htr⟩
  · show (enumDirs fs.dirs).items = _
    exact enumDirs_items_eq fs.dirs
  · intro pfx items name b hmem hs hitem hgood
    have ht : pfx ≠ TrashName := by
      intro h
      rw [h] at hs
      exact absurd hs (by decide)
    constructor
    · show (pfx, _) ∈ (enumDirs fs.dirs).dirs
      rw [enumDirs_dirs_eq]
      refine List.mem_filterMap.mpr ⟨(pfx, items), hmem, ?_⟩
      simp [ht, hs]
    · exact List.mem_filter.mpr ⟨hitem, hgood⟩

/-- A 37-hex item name used in concrete stores. -/
def restA : String := "aaaaaaaaaaaaaaaaaaaaaaaaaaaaaaaaaaaaa"

/-- A concrete store with one invalid shard directory, one invalid item
inside a valid shard, one valid entry, and a trash directory. -/
def c3fs : CasFs :=
  ⟨[("zzz", [("x", [1])]), ("aaa", [(restA, [2]), ("bad", [3])]), (TrashName, [])],
   [], false⟩

/-- Witness for C3 at the concrete store `c3fs`. -/
theorem enumerate_self_heals_witness :
    ("zzz" ∈ (enumDirs c3fs.dirs).trashed ∧ ((casEnumerate c3fs).1).needFsck = true) ∧
    (("aaa" ++ "/" ++ "bad") ∈ (enumDirs c3fs.dirs).trashed ∧
      ((casEnumerate c3fs).1).needFsck = true) ∧
    ((casEnumerate c3fs).2 = c3fs.dirs.flatMap (fun q =>
      if q.1 = TrashName then []
      else if validShard q.1 then
        (q.2.filter (fun e => validItem e.1)).map (fun e => q.1 ++ e.1)
      else [])) ∧
    (("aaa", [(restA, [2])]) ∈ ((casEnumerate c3fs).1).dirs) := by
  obtain ⟨h1, h2, h3, h4⟩ := enumerate_self_heals c3fs
  refine ⟨h1 "zzz" [("x", [1])] (by decide) (by decide) (by decide),
          h2 "aaa" [(restA, [2]), ("bad", [3])] "bad" [3]
            (by decide) (by decide) (by decide) (by decide),
          h3, ?_⟩
  have h := h4 "aaa" [(restA, [2]), ("bad", [3])] restA [2]
    (by decide) (by decide) (by decide) (by decide)
  have he : ([(restA, [2]), ("bad", [3])].filter (fun e => validItem e.1))
      = [(restA, [2])] := by decide
  rw [he] at h
  exact h.1

theorem enumDirs_append (A B : List (String × List (String × Bytes))) :
    enumDirs (A ++ B) =
      ⟨(enumDirs A).dirs ++ (enumDirs B).dirs,
       (enumDirs A).items ++ (enumDirs B).items,
       (enumDirs A).trashed ++ (enumDirs B).trashed⟩ := by
  induction A with
  | nil => rfl
  | cons q rest ih =>
    cases q with
    | mk pfx items =>
      by_cases ht : pfx = TrashName
      · simp [enumDirs, ht, ih]
      · by_cases hs : validShard pfx
        · simp [enumDirs, ht, hs, ih]
        · simp only [Bool.not_eq_true] at hs
          simp [enumDirs, ht, hs, ih]

theorem enumShard_of_valid (pfx : String) (its : List (String × Bytes))
    (h : ∀ e ∈ its, validItem e.1 = true) :
    enumShard pfx its = (its, its.map (fun e => pfx ++ e.1), []) := by
  rw [enumShard_eq]
  have h1 : its.filter (fun e => validItem e.1) = its := List.filter_eq_self.mpr h
  have h2 : its.filter (fun e => !validItem e.1) = [] := by
    refine List.filter_eq_nil_iff.mpr ?_
    intro e he
    simp [h e he]
  rw [h1, h2]
  rfl

theorem trash_ne_shard : validShard TrashName = false := by decide

theorem enumDirs_idem (d : List (String × List (String × Bytes))) :
    enumDirs (enumDirs d).dirs = ⟨(enumDirs d).dirs, (enumDirs d).items, []⟩ := by
  induction d with
  | nil => rfl
  | cons q rest ih =>
    cases q with
    | mk pfx items =>
      by_cases ht : pfx = TrashName
      · simp [enumDirs, ht, ih]
      · by_cases hs : validShard pfx
        · have hflt : ∀ e ∈ items.filter (fun e => validItem e.1), validItem e.1 = true := by
            intro e he
            exact (List.mem_filter.mp he).2
          simp [enumDirs, ht, hs, enumShard_eq, enumShard_of_valid _ _ hflt, ih,
            List.filter_filter]
        · simp only [Bool.not_eq_true] at hs
          simp [enumDirs, ht, hs, ih]

/-- C10: the trash directory is skipped by every enumeration pass: its
presence changes neither the yielded items nor the trashed paths nor the
consistency flag (so it is never itself quarantined and never sets the
flag), it survives the pass in place, and a second pass over the healed
store is a no-op that yields the same items — so quarantined entries stay
quarantined and invisible across arbitrarily many passes. -/
theorem trash_dir_invisible :
    (∀ A B its, enumDirs (A ++ (TrashName, its) :: B) =
      ⟨(enumDirs A).dirs ++ (TrashName, its) :: (enumDirs B).dirs,
       (enumDirs (A ++ B)).items,
       (enumDirs (A ++ B)).trashed⟩) ∧
    (∀ A B its trashed0 flag, casEnumerate ⟨A ++ (TrashName, its) :: B, trashed0, flag⟩ =
      ((⟨(enumDirs A).dirs ++ (TrashName, its) :: (enumDirs B).dirs,
         (casEnumerate ⟨A ++ B, trashed0, flag⟩).1.trashed,
         (casEnumerate ⟨A ++ B, trashed0, flag⟩).1.needFsck⟩ : CasFs),
        (casEnumerate ⟨A ++ B, trashed0, flag⟩).2)) ∧
    (∀ fs : CasFs, casEnumerate ((casEnumerate fs).1) = ((casEnumerate fs).1, (casEnumerate fs).2)) := by
  have hsplit : ∀ (A B : List (String × List (String × Bytes))) its,
      enumDirs (A ++ (TrashName, its) :: B) =
      ⟨(enumDirs A).dirs ++ (TrashName, its) :: (enumDirs B).dirs,
       (enumDirs (A ++ B)).items,
       (enumDirs (A ++ B)).trashed⟩ := by
    intro A B its
    rw [enumDirs_append, enumDirs_append]
    simp [enumDirs]
  refine ⟨hsplit, ?_, ?_⟩
  · intro A B its trashed0 flag
    simp only [casEnumerate, hsplit]
  · intro fs
    simp only [casEnumerate, enumDirs_idem]
    simp

/-! ### The fsck protocol over a pair of stores -/

/-- A blob store together with its node store, the two on-disk tables
owned by one dumbcas root. -/
structure StorePair where
  cas : CasFs
  nodes : CasFs
  deriving DecidableEq

/-- Modelled from the spec: the Node Store (nodes.go is not among the
sources) "mirrors the Blob Store's sharding and self-healing Enumerate()
discipline", so its enumeration is the same sharded walk; a structurally
invalid record is quarantined identically to CAS corruption. -/
def nodesEnumerateFs (fs : CasFs) : CasFs × List String := casEnumerate fs

/-- Modelled from the spec: the fsck command (fsck.go is not among the
sources) "performs exactly one full Enumerate() pass over the Blob Store
and one over the Node Store, relying entirely on the self-healing
behavior embedded in enumeration". Returns the two healed stores and the
two enumerated listings. -/
def fsckRun (s : StorePair) : StorePair × List String × List String :=
  let casPass := casEnumerate s.cas
  let nodesPass := nodesEnumerateFs s.nodes
  (⟨casPass.1, nodesPass.1⟩, casPass.2, nodesPass.2)

/-- The blob-store shard tree after archiving the test tree
`{file1 → "content1", dir1/dir2/file2 → "content2"}`: the two content
blobs under their sha1 digests plus one serialized Entry-tree blob. -/
def archCasDirs : List (String × List (String × Bytes)) :=
  [("105", [("e7a844ac896f68e6f7dc0a9389d3e9be95abc", [49])]),
   ("6dc", [("99d4757bcb35eaaf4cd3cb7907189fab8d254", [50])]),
   ("0f0", [("f0f0f0f0f0f0f0f0f0f0f0f0f0f0f0f0f0f0f", [51])])]

/-- The node-store shard tree after the same archive: two records. -/
def archNodeDirs : List (String × List (String × Bytes)) :=
  [("111", [("1111111111111111111111111111111111111", [61])]),
   ("222", [("2222222222222222222222222222222222222", [62])])]

/-- The node store with one existing record corrupted in place (its name
no longer matches the record pattern). -/
def corruptNodeDirs : List (String × List (String × Bytes)) :=
  [("111", [("1111111111111111111111111111111111111", [61])]),
   ("222", [("corrupt", [62])])]

/-- C4: fsck's quarantine policy is site-dependent. Injecting one corrupt
blob and running fsck restores the blob count to 3 and leaves the node
store byte-for-byte unchanged (both records, the referencing one
included, are preserved); injecting one corrupt node record and running
fsck leaves the blob count at 3 while the node count decreases by exactly
one. -/
theorem fsck_policy_by_site :
    ((fsckRun ⟨⟨archCasDirs ++ [("corrupt", [])], [], false⟩,
               ⟨archNodeDirs, [], false⟩⟩).2.1.length = 3 ∧
     (fsckRun ⟨⟨archCasDirs ++ [("corrupt", [])], [], false⟩,
               ⟨archNodeDirs, [], false⟩⟩).1.nodes.dirs = archNodeDirs ∧
     (fsckRun ⟨⟨archCasDirs ++ [("corrupt", [])], [], false⟩,
               ⟨archNodeDirs, [], false⟩⟩).2.2.length = 2 ∧
     "corrupt" ∈ (fsckRun ⟨⟨archCasDirs ++ [("corrupt", [])], [], false⟩,
               ⟨archNodeDirs, [], false⟩⟩).1.cas.trashed) ∧
    ((fsckRun ⟨⟨archCasDirs, [], false⟩, ⟨corruptNodeDirs, [], false⟩⟩).2.1.length = 3 ∧
     (fsckRun ⟨⟨archCasDirs, [], false⟩, ⟨corruptNodeDirs, [], false⟩⟩).2.2.length = 1 ∧
     ("222" ++ "/" ++ "corrupt") ∈
       (fsckRun ⟨⟨archCasDirs, [], false⟩, ⟨corruptNodeDirs, [], false⟩⟩).1.nodes.trashed) := by
  decide

/-! ### Blob-store operations (`cas.go`) -/

/-- The error conditions distinguished by the Go code paths of `cas.go`:
`os.ErrExist` from the exclusive create, `ENOENT` from opening or
renaming a missing file, `os.ErrInvalid` returned by `Open` for a
malformed digest, the wrapped "Failed to copy(dst)" creation failure, a
propagated `io.Copy` error, and the "Remove(...) is invalid" error. -/
inductive CasError where
  | errExist
  | errNotExist
  | errInvalid
  | copyDstFailed
  | copyFailed
  | removeInvalid
  deriving DecidableEq

instance exceptDecEq {α β : Type} [DecidableEq α] [DecidableEq β] :
    DecidableEq (Except α β)
  | .error a, .error b =>
    if h : a = b then .isTrue (h ▸ rfl)
    else .isFalse (fun hc => h (Except.error.inj hc))
  | .error _, .ok _ => .isFalse (fun hc => Except.noConfusion hc)
  | .ok _, .error _ => .isFalse (fun hc => Except.noConfusion hc)
  | .ok a, .ok b =>
    if h : a = b then .isTrue (h ▸ rfl)
    else .isFalse (fun hc => h (Except.ok.inj hc))

/-- `os.IsExist`: holds exactly for the exclusive-create collision. -/
def isExist : CasError → Bool
  | .errExist => true
  | _ => false

/-- `os.IsNotExist`: holds exactly for the missing-file condition. -/
def isNotExist : CasError → Bool
  | .errNotExist => true
  | _ => false

/-- The shard-directory part `hash[:splitAt]` of a digest's path. -/
def shardOf (hash : String) : String := ⟨hash.data.take splitAt3⟩

/-- The file-name part `hash[splitAt:]` of a digest's path. -/
def restOf (hash : String) : String := ⟨hash.data.drop splitAt3⟩

/-- `casTable.filePath`: validates the digest against
`^([a-f0-9]{40})$` and splits it into shard directory and file name;
`none` models the empty-string sentinel returned for an invalid hash. -/
def filePath (hash : String) : Option (String × String) :=
  if validDigest hash then some (shardOf hash, restOf hash) else none

def findShard : List (String × List (String × Bytes)) → String → Option (List (String × Bytes))
  | [], _ => none
  | q :: rest, p => if q.1 = p then some q.2 else findShard rest p

def findFile : List (String × Bytes) → String → Option Bytes
  | [], _ => none
  | e :: rest, n => if e.1 = n then some e.2 else findFile rest n

/-- Contents of the blob at shard `p`, file `n`, if present. -/
def readFileFs (fs : CasFs) (p n : String) : Option Bytes :=
  match findShard fs.dirs p with
  | none => none
  | some its => findFile its n

def dirExists (fs : CasFs) (p : String) : Bool := (findShard fs.dirs p).isSome

def fileExists (fs : CasFs) (p n : String) : Bool := (readFileFs fs p n).isSome

def updateShard : List (String × List (String × Bytes)) → String →
    (List (String × Bytes) → List (String × Bytes)) → List (String × List (String × Bytes))
  | [], _, _ => []
  | q :: rest, p, f => if q.1 = p then (q.1, f q.2) :: rest else q :: updateShard rest p f

/-- Create the file `p/n` with contents `b` (the shard directories are
pre-created by `MakeCasTable`, so the write targets an existing shard). -/
def writeFileFs (fs : CasFs) (p n : String) (b : Bytes) : CasFs :=
  ⟨updateShard fs.dirs p (fun its => its ++ [(n, b)]), fs.trashed, fs.needFsck⟩

def eraseFile : List (String × Bytes) → String → List (String × Bytes)
  | [], _ => []
  | e :: rest, n => if e.1 = n then rest else e :: eraseFile rest n

/-- Total number of blobs in the store. -/
def blobCount (fs : CasFs) : Nat := (fs.dirs.map (fun q => q.2.length)).sum

/-- A source reader handed to `AddEntry`: the bytes it would produce and
an optional point after which reading fails, modelling an I/O error
partway through `io.Copy`. -/
structure Reader where
  data : Bytes
  failAfter : Option Nat

/-- The bytes `io.Copy` manages to transfer before the reader errors. -/
def Reader.readable (r : Reader) : Bytes :=
  match r.failAfter with
  | none => r.data
  | some k => r.data.take k

def Reader.fails (r : Reader) : Bool := r.failAfter.isSome

/-- `casTable.AddEntry`: computes the target path, creates it with
`O_CREATE|O_EXCL` (an existing file is reported as `os.ErrExist`; an
invalid path or missing directory is the wrapped "Failed to copy(dst)"
error), then copies from the source; a copy error is returned to the
caller but the partially written destination file is left in place. -/
def AddEntry (fs : CasFs) (source : Reader) (hash : String) : CasFs × Option CasError :=
  match filePath hash with
  | none => (fs, some .copyDstFailed)
  | some (p, n) =>
    if fileExists fs p n then (fs, some .errExist)
    else if dirExists fs p then
      (writeFileFs fs p n source.readable,
       if source.fails then some .copyFailed else none)
    else (fs, some .copyDstFailed)

/-- `casTable.Open`: `os.ErrInvalid` for a malformed digest, otherwise
`os.Open`, whose failure on a missing file is the `ENOENT` condition. -/
def Open (fs : CasFs) (hash : String) : Except CasError Bytes :=
  match filePath hash with
  | none => .error .errInvalid
  | some (p, n) =>
    match readFileFs fs p n with
    | none => .error .errNotExist
    | some b => .ok b

/-- `casTable.Remove`: validates the digest syntax, then moves the blob
`hash[:3]/hash[3:]` to Trash (`Trash.Move` is modelled from the spec:
rename into the quarantine subtree, failing with `ENOENT` when the
source path is absent). -/
def Remove (fs : CasFs) (hash : String) : CasFs × Option CasError :=
  if validDigest hash then
    if fileExists fs (shardOf hash) (restOf hash) then
      (⟨updateShard fs.dirs (shardOf hash) (fun its => eraseFile its (restOf hash)),
        fs.trashed ++ [shardOf hash ++ "/" ++ restOf hash], fs.needFsck⟩, none)
    else (fs, some .errNotExist)
  else (fs, some .removeInvalid)

/-- `casTable.NeedFsck`: creates the persisted `need_fsck` marker. -/
def NeedFsckOp (fs : CasFs) : CasFs := ⟨fs.dirs, fs.trashed, true⟩

/-- `casTable.WarnIfFsckIsNeeded`: reports whether the marker exists. -/
def WarnIfFsckIsNeeded (fs : CasFs) : Bool := fs.needFsck

/-! ### The digest function: SHA-1 (`sha1Bytes` in `main.go`) -/

/-- Truncation to a 32-bit word. -/
def w32 (n : Nat) : Nat := n % 4294967296

/-- Left rotation of a 32-bit word by `b` bits. -/
def rotl (b x : Nat) : Nat := (x * 2 ^ b) % 4294967296 + x / 2 ^ (32 - b)

/-- The SHA-1 round function. -/
def sha1F (i b c d : Nat) : Nat :=
  if i < 20 then (b &&& c) ||| ((b ^^^ 4294967295) &&& d)
  else if i < 40 then b ^^^ c ^^^ d
  else if i < 60 then (b &&& c) ||| (b &&& d) ||| (c &&& d)
  else b ^^^ c ^^^ d

/-- The SHA-1 round constants. -/
def sha1K (i : Nat) : Nat :=
  if i < 20 then 1518500249
  else if i < 40 then 1859775393
  else if i < 60 then 2400959708
  else 3395469782

/-- Number of zero padding bytes so that message+1+zeros is 56 mod 64. -/
def padZeros (len : Nat) : Nat := (119 - len % 64) % 64

/-- The 8-byte big-endian bit-length trailer. -/
def lenBytes (len : Nat) : Bytes :=
  let L := len * 8
  [L / 2 ^ 56 % 256, L / 2 ^ 48 % 256, L / 2 ^ 40 % 256, L / 2 ^ 32 % 256,
   L / 2 ^ 24 % 256, L / 2 ^ 16 % 256, L / 2 ^ 8 % 256, L % 256]

/-- SHA-1 message padding. -/
def sha1Pad (msg : Bytes) : Bytes :=
  msg ++ [128] ++ List.replicate (padZeros msg.length) 0 ++ lenBytes msg.length

/-- Split a byte sequence into 64-byte blocks. Structural recursion on a
fuel of one unit per byte, which always suffices since every step
consumes at least one byte. -/
def chunk64Go : Nat → Bytes → List Bytes
  | _, [] => []
  | 0, _ :: _ => []
  | fuel + 1, x :: xs => ((x :: xs).take 64) :: chunk64Go fuel ((x :: xs).drop 64)

/-- Split a byte sequence into 64-byte blocks. -/
def chunk64 (l : Bytes) : List Bytes := chunk64Go l.length l

/-- Big-endian 32-bit words from bytes. -/
def bytesToWords : Bytes → List Nat
  | a :: b :: c :: d :: rest =>
    (a * 16777216 + b * 65536 + c * 256 + d) :: bytesToWords rest
  | _ => []

/-- Extend 16 words to the 80-word schedule. -/
def sha1Extend (ws : List Nat) : List Nat :=
  (List.range 80).foldl (fun acc i =>
    if i < 16 then acc ++ [ws.getD i 0]
    else acc ++ [rotl 1 (acc.getD (i - 3) 0 ^^^ acc.getD (i - 8) 0 ^^^
                         acc.getD (i - 14) 0 ^^^ acc.getD (i - 16) 0)]) []

/-- One SHA-1 compression step over a 64-byte block. -/
def sha1Compress (h : Nat × Nat × Nat × Nat × Nat) (block : Bytes) :
    Nat × Nat × Nat × Nat × Nat :=
  let ws := sha1Extend (bytesToWords block)
  let step := fun (st : Nat × Nat × Nat × Nat × Nat) (iw : Nat × Nat) =>
    let temp := w32 (rotl 5 st.1 + sha1F iw.1 st.2.1 st.2.2.1 st.2.2.2.1 +
                     st.2.2.2.2 + sha1K iw.1 + iw.2)
    (temp, st.1, rotl 30 st.2.1, st.2.2.1, st.2.2.2.1)
  let f := ((List.range 80).zip ws).foldl step h
  (w32 (h.1 + f.1), w32 (h.2.1 + f.2.1), w32 (h.2.2.1 + f.2.2.1),
   w32 (h.2.2.2.1 + f.2.2.2.1), w32 (h.2.2.2.2 + f.2.2.2.2))

/-- A 32-bit word as 4 big-endian bytes. -/
def be4 (x : Nat) : Bytes :=
  [x / 16777216 % 256, x / 65536 % 256, x / 256 % 256, x % 256]

/-- The 20-byte SHA-1 digest of a byte sequence. -/
def sha1DigestBytes (msg : Bytes) : Bytes :=
  let h := (chunk64 (sha1Pad msg)).foldl sha1Compress
    (1732584193, 4023233417, 2562383102, 271733878, 3285377520)
  be4 h.1 ++ be4 h.2.1 ++ be4 h.2.2.1 ++ be4 h.2.2.2.1 ++ be4 h.2.2.2.2

/-- A nibble as a lowercase hex character (`encoding/hex`). -/
def hexChar (n : Nat) : Char :=
  if n < 10 then Char.ofNat (48 + n) else Char.ofNat (87 + n)

/-- A byte as two lowercase hex characters. -/
def byteToHex (b : Nat) : List Char := [hexChar (b / 16), hexChar (b % 16)]

/-- `sha1Bytes` from `main.go`: `hex.EncodeToString(sha1(content))`. -/
def sha1Bytes (content : Bytes) : String :=
  ⟨(sha1DigestBytes content).flatMap byteToHex⟩

theorem be4_mem_lt (x : Nat) : ∀ b ∈ be4 x, b < 256 := by
  intro b hb
  simp only [be4, List.mem_cons, List.not_mem_nil, or_false] at hb
  rcases hb with rfl | rfl | rfl | rfl <;> exact Nat.mod_lt _ (by norm_num)

theorem sha1DigestBytes_length (msg : Bytes) : (sha1DigestBytes msg).length = 20 := by
  simp [sha1DigestBytes, be4]

theorem sha1DigestBytes_mem_lt (msg : Bytes) : ∀ b ∈ sha1DigestBytes msg, b < 256 := by
  intro b hb
  simp only [sha1DigestBytes, List.mem_append] at hb
  rcases hb with ((((h | h) | h) | h) | h) <;> exact be4_mem_lt _ b h

theorem hexChar_isHex (n : Nat) (h : n < 16) : isHexChar (hexChar n) = true := by
  interval_cases n <;> decide

theorem flatMap_byteToHex_length (l : Bytes) : (l.flatMap byteToHex).length = 2 * l.length := by
  induction l with
  | nil => rfl
  | cons a t ih =>
    simp only [List.flatMap_cons, List.length_append, ih, byteToHex, List.length_cons]
    simp
    omega

/-- The digest function always produces a syntactically valid digest:
40 lowercase hex characters. -/
theorem validDigest_sha1 (content : Bytes) : validDigest (sha1Bytes content) = true := by
  have hlen : ((sha1DigestBytes content).flatMap byteToHex).length = 40 := by
    rw [flatMap_byteToHex_length, sha1DigestBytes_length]
  have hhex : ∀ c ∈ (sha1DigestBytes content).flatMap byteToHex, isHexChar c = true := by
    intro c hc
    obtain ⟨b, hb, hcb⟩ := List.mem_flatMap.mp hc
    have hblt := sha1DigestBytes_mem_lt content b hb
    simp only [byteToHex, List.mem_cons, List.not_mem_nil, or_false] at hcb
    rcases hcb with rfl | rfl
    · exact hexChar_isHex _ (Nat.div_lt_of_lt_mul (by omega))
    · exact hexChar_isHex _ (Nat.mod_lt _ (by norm_num))
  simp only [validDigest, hexLen, sha1Bytes, hashLength, Bool.and_eq_true, beq_iff_eq]
  exact ⟨hlen, List.all_eq_true.mpr hhex⟩

/-- `filePath` on a digest produced by the digest function. -/
theorem filePath_sha1 (content : Bytes) :
    filePath (sha1Bytes content) = some (shardOf (sha1Bytes content), restOf (sha1Bytes content)) := by
  simp [filePath, validDigest_sha1]

/-! ### Store-operation lemmas -/

theorem findFile_none_forall {its : List (String × Bytes)} {n : String}
    (h : findFile its n = none) : ∀ e ∈ its, e.1 ≠ n := by
  induction its with
  | nil => intro e he; cases he
  | cons a rest ih =>
    intro e he
    by_cases ha : a.1 = n
    · rw [findFile, if_pos ha] at h; cases h
    · rw [findFile, if_neg ha] at h
      rcases List.mem_cons.mp he with rfl | he2
      · exact ha
      · exact ih h e he2

theorem findFile_append_self (its : List (String × Bytes)) (n : String) (b : Bytes)
    (h : findFile its n = none) : findFile (its ++ [(n, b)]) n = some b := by
  induction its with
  | nil => simp [findFile]
  | cons a rest ih =>
    by_cases ha : a.1 = n
    · rw [findFile, if_pos ha] at h; cases h
    · rw [findFile, if_neg ha] at h
      simpa [findFile, ha] using ih h

theorem findShard_updateShard_self (dirs : List (String × List (String × Bytes)))
    (p : String) (f : List (String × Bytes) → List (String × Bytes)) :
    findShard (updateShard dirs p f) p = (findShard dirs p).map f := by
  induction dirs with
  | nil => rfl
  | cons q rest ih =>
    by_cases hq : q.1 = p
    · simp [updateShard, findShard, hq]
    · simp [updateShard, findShard, hq, ih]

theorem eraseFile_append_of_none (its : List (String × Bytes)) (n : String) (b : Bytes)
    (h : findFile its n = none) : eraseFile (its ++ [(n, b)]) n = its := by
  induction its with
  | nil => simp [eraseFile]
  | cons a rest ih =>
    by_cases ha : a.1 = n
    · rw [findFile, if_pos ha] at h; cases h
    · rw [findFile, if_neg ha] at h
      simp [eraseFile, ha, ih h]

theorem sumLens_updateShard_append (dirs : List (String × List (String × Bytes)))
    (p : String) (e : String × Bytes)
    (hd : (findShard dirs p).isSome = true) :
    ((updateShard dirs p (fun its => its ++ [e])).map (fun q => q.2.length)).sum
      = (dirs.map (fun q => q.2.length)).sum + 1 := by
  induction dirs with
  | nil => cases hd
  | cons q rest ih =>
    by_cases hq : q.1 = p
    · simp [updateShard, hq]
      omega
    · rw [findShard, if_neg hq] at hd
      simp only [updateShard, if_neg hq, List.map_cons, List.sum_cons, ih hd]
      omega

theorem blobCount_writeFileFs (fs : CasFs) (p n : String) (b : Bytes)
    (hd : dirExists fs p = true) :
    blobCount (writeFileFs fs p n b) = blobCount fs + 1 :=
  sumLens_updateShard_append fs.dirs p (n, b) hd

theorem readFileFs_write_self (fs : CasFs) (p n : String) (b : Bytes)
    (hd : dirExists fs p = true) (hf : fileExists fs p n = false) :
    readFileFs (writeFileFs fs p n b) p n = some b := by
  unfold dirExists at hd
  unfold fileExists readFileFs at hf
  unfold readFileFs writeFileFs
  cases hsh : findShard fs.dirs p with
  | none => rw [hsh] at hd; cases hd
  | some its =>
    have hfn : findFile its n = none := by
      cases h2 : findFile its n with
      | none => rfl
      | some c => rw [hsh] at hf; simp [h2] at hf
    simp only [findShard_updateShard_self, hsh, Option.map_some]
    exact findFile_append_self its n b hfn

/-- `AddBytes` from `cas.go`: hashes the data and calls `AddEntry`;
returns the digest alongside the call's outcome. -/
def AddBytes (fs : CasFs) (data : Bytes) : String × CasFs × Option CasError :=
  (sha1Bytes data, AddEntry fs ⟨data, none⟩ (sha1Bytes data))

theorem addEntry_fresh (fs : CasFs) (data : Bytes)
    (hdir : dirExists fs (shardOf (sha1Bytes data)) = true)
    (habs : fileExists fs (shardOf (sha1Bytes data)) (restOf (sha1Bytes data)) = false) :
    AddEntry fs ⟨data, none⟩ (sha1Bytes data) =
      (writeFileFs fs (shardOf (sha1Bytes data)) (restOf (sha1Bytes data)) data, none) := by
  unfold AddEntry
  rw [filePath_sha1]
  simp [habs, hdir, Reader.fails, Reader.readable]

/-- C5: the digest function is deterministic — equal byte sequences get
the identical digest — and storing the same content twice stores exactly
one blob: the first `AddBytes` succeeds and grows the store by one blob,
the second reports the `os.IsExist` dedup signal, leaves the store
untouched, does not overwrite the existing blob's bytes, and both calls
return the identical digest. -/
theorem add_bytes_dedup (fs : CasFs) (b1 b2 : Bytes) (heq : b1 = b2)
    (hdir : dirExists fs (shardOf (sha1Bytes b1)) = true)
    (habs : fileExists fs (shardOf (sha1Bytes b1)) (restOf (sha1Bytes b1)) = false) :
    sha1Bytes b1 = sha1Bytes b2 ∧
    (AddBytes fs b1).2.2 = none ∧
    blobCount (AddBytes fs b1).2.1 = blobCount fs + 1 ∧
    (AddBytes (AddBytes fs b1).2.1 b2).2.2 = some CasError.errExist ∧
    isExist CasError.errExist = true ∧
    (AddBytes (AddBytes fs b1).2.1 b2).2.1 = (AddBytes fs b1).2.1 ∧
    readFileFs (AddBytes (AddBytes fs b1).2.1 b2).2.1
      (shardOf (sha1Bytes b1)) (restOf (sha1Bytes b1)) = some b1 ∧
    (AddBytes fs b1).1 = (AddBytes (AddBytes fs b1).2.1 b2).1 := by
  subst heq
  have h1 := addEntry_fresh fs b1 hdir habs
  have hread : readFileFs (writeFileFs fs (shardOf (sha1Bytes b1)) (restOf (sha1Bytes b1)) b1)
      (shardOf (sha1Bytes b1)) (restOf (sha1Bytes b1)) = some b1 :=
    readFileFs_write_self fs _ _ b1 hdir habs
  have hex : fileExists (writeFileFs fs (shardOf (sha1Bytes b1)) (restOf (sha1Bytes b1)) b1)
      (shardOf (sha1Bytes b1)) (restOf (sha1Bytes b1)) = true := by
    unfold fileExists
    rw [hread]
    rfl
  have h2 : AddEntry (writeFileFs fs (shardOf (sha1Bytes b1)) (restOf (sha1Bytes b1)) b1)
      ⟨b1, none⟩ (sha1Bytes b1) =
      (writeFileFs fs (shardOf (sha1Bytes b1)) (restOf (sha1Bytes b1)) b1,
       some CasError.errExist) := by
    unfold AddEntry
    rw [filePath_sha1]
    simp [hex]
  refine ⟨rfl, ?_, ?_, ?_, rfl, ?_, ?_, rfl⟩
  · simp [AddBytes, h1]
  · simp [AddBytes, h1, blobCount_writeFileFs fs _ _ b1 hdir]
  · simp [AddBytes, h1, h2]
  · simp [AddBytes, h1, h2]
  · simp [AddBytes, h1, h2, hread]

/-- Witness for C5: adding "content1" twice to a store holding its shard
directory `105`. -/
theorem add_bytes_dedup_witness :
    (let fs : CasFs := ⟨[("105", [])], [], false⟩
     let b : Bytes := [99, 111, 110, 116, 101, 110, 116, 49]
     sha1Bytes b = sha1Bytes b ∧
     (AddBytes fs b).2.2 = none ∧
     blobCount (AddBytes fs b).2.1 = blobCount fs + 1 ∧
     (AddBytes (AddBytes fs b).2.1 b).2.2 = some CasError.errExist ∧
     isExist CasError.errExist = true ∧
     (AddBytes (AddBytes fs b).2.1 b).2.1 = (AddBytes fs b).2.1 ∧
     readFileFs (AddBytes (AddBytes fs b).2.1 b).2.1
       (shardOf (sha1Bytes b)) (restOf (sha1Bytes b)) = some b ∧
     (AddBytes fs b).1 = (AddBytes (AddBytes fs b).2.1 b).1) := by
  refine add_bytes_dedup _ _ _ rfl ?_ ?_
  · decide
  · decide

theorem dirExists_some (fs : CasFs) (p : String) (hd : dirExists fs p = true) :
    ∃ its, findShard fs.dirs p = some its := by
  unfold dirExists at hd
  cases h : findShard fs.dirs p with
  | none => rw [h] at hd; cases hd
  | some its => exact ⟨its, rfl⟩

theorem fileExists_none (fs : CasFs) (p n : String) (its : List (String × Bytes))
    (hsh : findShard fs.dirs p = some its) (hf : fileExists fs p n = false) :
    findFile its n = none := by
  unfold fileExists readFileFs at hf
  rw [hsh] at hf
  cases h2 : findFile its n with
  | none => rfl
  | some c => simp [h2] at hf

/-- C6: round-trip. A byte sequence added under its digest is readable
back byte-identical through `Open`; after `Remove` the same `Open` fails
with the `os.IsNotExist` condition, and a second `Remove` fails too. -/
theorem add_open_remove_roundtrip (fs : CasFs) (data : Bytes)
    (hdir : dirExists fs (shardOf (sha1Bytes data)) = true)
    (habs : fileExists fs (shardOf (sha1Bytes data)) (restOf (sha1Bytes data)) = false) :
    (AddEntry fs ⟨data, none⟩ (sha1Bytes data)).2 = none ∧
    Open (AddEntry fs ⟨data, none⟩ (sha1Bytes data)).1 (sha1Bytes data) = .ok data ∧
    (Remove (AddEntry fs ⟨data, none⟩ (sha1Bytes data)).1 (sha1Bytes data)).2 = none ∧
    Open (Remove (AddEntry fs ⟨data, none⟩ (sha1Bytes data)).1 (sha1Bytes data)).1
      (sha1Bytes data) = .error CasError.errNotExist ∧
    isNotExist CasError.errNotExist = true ∧
    (Remove (Remove (AddEntry fs ⟨data, none⟩ (sha1Bytes data)).1 (sha1Bytes data)).1
      (sha1Bytes data)).2 = some CasError.errNotExist := by
  obtain ⟨its, hsh⟩ := dirExists_some fs _ hdir
  have hfn := fileExists_none fs _ _ its hsh habs
  have h1 := addEntry_fresh fs data hdir habs
  have hread := readFileFs_write_self fs (shardOf (sha1Bytes data)) (restOf (sha1Bytes data))
    data hdir habs
  have hex : fileExists (writeFileFs fs (shardOf (sha1Bytes data)) (restOf (sha1Bytes data)) data)
      (shardOf (sha1Bytes data)) (restOf (sha1Bytes data)) = true := by
    simp [fileExists, hread]
  have hopen1 : Open (writeFileFs fs (shardOf (sha1Bytes data)) (restOf (sha1Bytes data)) data)
      (sha1Bytes data) = .ok data := by
    simp [Open, filePath_sha1, hread]
  have hrm : Remove (writeFileFs fs (shardOf (sha1Bytes data)) (restOf (sha1Bytes data)) data)
      (sha1Bytes data) =
      (⟨updateShard (writeFileFs fs (shardOf (sha1Bytes data)) (restOf (sha1Bytes data)) data).dirs
          (shardOf (sha1Bytes data)) (fun l => eraseFile l (restOf (sha1Bytes data))),
        fs.trashed ++ [shardOf (sha1Bytes data) ++ "/" ++ restOf (sha1Bytes data)],
        fs.needFsck⟩, none) := by
    unfold Remove
    rw [validDigest_sha1, hex]
    simp [writeFileFs]
  have hshw : findShard (writeFileFs fs (shardOf (sha1Bytes data)) (restOf (sha1Bytes data))
      data).dirs (shardOf (sha1Bytes data)) = some (its ++ [(restOf (sha1Bytes data), data)]) := by
    unfold writeFileFs
    simp [findShard_updateShard_self, hsh]
  have hgone : readFileFs (Remove (writeFileFs fs (shardOf (sha1Bytes data))
        (restOf (sha1Bytes data)) data) (sha1Bytes data)).1
      (shardOf (sha1Bytes data)) (restOf (sha1Bytes data)) = none := by
    rw [hrm]
    simp [readFileFs, findShard_updateShard_self, hshw,
      eraseFile_append_of_none its (restOf (sha1Bytes data)) data hfn, hfn]
  have hopen2 : Open (Remove (writeFileFs fs (shardOf (sha1Bytes data))
        (restOf (sha1Bytes data)) data) (sha1Bytes data)).1 (sha1Bytes data)
      = .error CasError.errNotExist := by
    simp [Open, filePath_sha1, hgone]
  have hfe2 : fileExists (Remove (writeFileFs fs (shardOf (sha1Bytes data))
        (restOf (sha1Bytes data)) data) (sha1Bytes data)).1
      (shardOf (sha1Bytes data)) (restOf (sha1Bytes data)) = false := by
    simp [fileExists, hgone]
  have hrm2 : (Remove (Remove (writeFileFs fs (shardOf (sha1Bytes data))
        (restOf (sha1Bytes data)) data) (sha1Bytes data)).1 (sha1Bytes data)).2
      = some CasError.errNotExist := by
    generalize hX : (Remove (writeFileFs fs (shardOf (sha1Bytes data))
      (restOf (sha1Bytes data)) data) (sha1Bytes data)).1 = X at hfe2 ⊢
    simp [Remove, validDigest_sha1, hfe2]
  rw [h1]
  exact ⟨rfl, hopen1, by rw [hrm], hopen2, rfl, hrm2⟩

/-- Witness for C6 at the concrete store holding shard `105` and the
bytes of "content1". -/
theorem add_open_remove_roundtrip_witness :
    (let fs : CasFs := ⟨[("105", [])], [], false⟩
     let data : Bytes := [99, 111, 110, 116, 101, 110, 116, 49]
     (AddEntry fs ⟨data, none⟩ (sha1Bytes data)).2 = none ∧
     Open (AddEntry fs ⟨data, none⟩ (sha1Bytes data)).1 (sha1Bytes data) = .ok data ∧
     (Remove (AddEntry fs ⟨data, none⟩ (sha1Bytes data)).1 (sha1Bytes data)).2 = none ∧
     Open (Remove (AddEntry fs ⟨data, none⟩ (sha1Bytes data)).1 (sha1Bytes data)).1
       (sha1Bytes data) = .error CasError.errNotExist ∧
     isNotExist CasError.errNotExist = true ∧
     (Remove (Remove (AddEntry fs ⟨data, none⟩ (sha1Bytes data)).1 (sha1Bytes data)).1
       (sha1Bytes data)).2 = some CasError.errNotExist) := by
  refine add_open_remove_roundtrip _ _ ?_ ?_
  · decide
  · decide

/-- C9: `AddEntry` is not atomic on a failed write. When the exclusive
create succeeds but the copy from the source fails partway, the call
returns the copy error while the truncated destination file stays in the
store; every later `AddEntry` for the same digest then reports
`os.IsExist` and leaves the truncated content in place, so it is never
rewritten through the public write path. -/
theorem addEntry_partial_write (fs : CasFs) (data : Bytes) (k : Nat) (hash : String)
    (hv : validDigest hash = true)
    (hdir : dirExists fs (shardOf hash) = true)
    (habs : fileExists fs (shardOf hash) (restOf hash) = false)
    (hk : k < data.length) :
    (AddEntry fs ⟨data, some k⟩ hash).2 = some CasError.copyFailed ∧
    readFileFs (AddEntry fs ⟨data, some k⟩ hash).1 (shardOf hash) (restOf hash)
      = some (data.take k) ∧
    data.take k ≠ data ∧
    (∀ src2 : Reader, AddEntry (AddEntry fs ⟨data, some k⟩ hash).1 src2 hash
      = ((AddEntry fs ⟨data, some k⟩ hash).1, some CasError.errExist)) ∧
    isExist CasError.errExist = true := by
  have hfp : filePath hash = some (shardOf hash, restOf hash) := by
    simp [filePath, hv]
  have h1 : AddEntry fs ⟨data, some k⟩ hash =
      (writeFileFs fs (shardOf hash) (restOf hash) (data.take k), some CasError.copyFailed) := by
    unfold AddEntry
    rw [hfp]
    simp [habs, hdir, Reader.fails, Reader.readable]
  have hread := readFileFs_write_self fs (shardOf hash) (restOf hash) (data.take k) hdir habs
  have hex : fileExists (writeFileFs fs (shardOf hash) (restOf hash) (data.take k))
      (shardOf hash) (restOf hash) = true := by
    simp [fileExists, hread]
  refine ⟨by rw [h1], by rw [h1]; exact hread, ?_, ?_, rfl⟩
  · intro hcontra
    have hlen := congrArg List.length hcontra
    simp [List.length_take] at hlen
    omega
  · intro src2
    rw [h1]
    unfold AddEntry
    rw [hfp]
    simp [hex]

/-- Witness for C9 at a concrete store, digest and reader that fails
after one of three bytes. -/
theorem addEntry_partial_write_witness :
    (let fs : CasFs := ⟨[("aaa", [])], [], false⟩
     let hash : String := "aaa" ++ restA
     let data : Bytes := [1, 2, 3]
     (AddEntry fs ⟨data, some 1⟩ hash).2 = some CasError.copyFailed ∧
     readFileFs (AddEntry fs ⟨data, some 1⟩ hash).1 (shardOf hash) (restOf hash)
       = some (data.take 1) ∧
     data.take 1 ≠ data ∧
     (∀ src2 : Reader, AddEntry (AddEntry fs ⟨data, some 1⟩ hash).1 src2 hash
       = ((AddEntry fs ⟨data, some 1⟩ hash).1, some CasError.errExist)) ∧
     isExist CasError.errExist = true) := by
  refine addEntry_partial_write _ _ _ _ ?_ ?_ ?_ ?_
  · decide
  · decide
  · decide
  · decide

/-- C7 counterexample: `Open` on the syntactically invalid digest `"0"`
returns `os.ErrInvalid`, for which `os.IsNotExist` does not hold, while
`Open` of a missing file under a syntactically valid digest returns the
distinct `ENOENT` condition — so the invalid-digest failure is not the
"not found" condition the claim asserts. -/
theorem open_invalid_digest_cex :
    Open ⟨[("105", [])], [], false⟩ "0" = .error CasError.errInvalid ∧
    isNotExist CasError.errInvalid = false ∧
    Open ⟨[("105", [])], [], false⟩ ("105" ++ restA) = .error CasError.errNotExist ∧
    isNotExist CasError.errNotExist = true ∧
    CasError.errInvalid ≠ CasError.errNotExist := by
  decide

/-- C7 amended: for every string failing the digest pattern
`^[a-f0-9]{40}$`, `Open` fails immediately without opening or creating
any file — but with `os.ErrInvalid`, an invalid-argument condition
distinct from the not-found condition raised for a missing file. -/
theorem open_invalid_digest_fails (fs : CasFs) (s : String)
    (h : validDigest s = false) :
    Open fs s = .error CasError.errInvalid ∧
    isNotExist CasError.errInvalid = false ∧
    CasError.errInvalid ≠ CasError.errNotExist := by
  refine ⟨?_, rfl, by decide⟩
  simp [Open, filePath, h]

/-- Witness for the amended C7 at the digest `"0"` on an empty store. -/
theorem open_invalid_digest_fails_witness :
    Open ⟨[], [], false⟩ "0" = .error CasError.errInvalid ∧
    isNotExist CasError.errInvalid = false ∧
    CasError.errInvalid ≠ CasError.errNotExist :=
  open_invalid_digest_fails ⟨[], [], false⟩ "0" (by decide)

/-! ### The garbage collector (`gc.go`) -/

/-- A snapshot-tree `Entry`. Modelled from the spec (node.go is not among
the sources) and from its use in `TagRecurse`: `Sha1` is the optional
content digest (empty string when absent), `Files` the name → child
mapping of a directory. -/
inductive Entry where
  | mk (sha1 : String) (files : List (String × Entry))

/-- The `entries map[string]bool` of `gcRun.main`, as an association list
in insertion order; assignment updates the existing key or inserts. -/
abbrev GoMap := List (String × Bool)

def mapSet : GoMap → String → Bool → GoMap
  | [], k, v => [(k, v)]
  | p :: rest, k, v => if p.1 = k then (k, v) :: rest else p :: mapSet rest k v

def mapGet : GoMap → String → Option Bool
  | [], _ => none
  | p :: rest, k => if p.1 = k then some p.2 else mapGet rest k

mutual

/-- `TagRecurse` from `gc.go`: tags the entry's content digest (when
nonempty) as reachable, then recurses into every child. -/
def TagRecurse (entries : GoMap) : Entry → GoMap
  | .mk sha1 files =>
    tagFiles (if sha1 ≠ "" then mapSet entries sha1 true else entries) files

/-- The `for _, i := range entry.Files` loop of `TagRecurse`. -/
def tagFiles (entries : GoMap) : List (String × Entry) → GoMap
  | [] => entries
  | (_, e) :: rest => tagFiles (TagRecurse entries e) rest

end

mutual

/-- The digests `TagRecurse` tags in one Entry tree. -/
def entryDigests : Entry → List String
  | .mk sha1 files => (if sha1 ≠ "" then [sha1] else []) ++ filesDigests files

def filesDigests : List (String × Entry) → List String
  | [] => []
  | (_, e) :: rest => entryDigests e ++ filesDigests rest

end

/-- The Blob Store as the GC observes it through the `CasTable`
interface: the stored digests, each blob carrying its decoded Entry when
its bytes decode as one. -/
abbrev GcCas := List (String × Option Entry)

inductive GcError where
  | enumerateFailed
  | nodesFailed
  | loadFailed
  | removeFailed
  deriving DecidableEq

def lookupBlob : GcCas → String → Option (Option Entry)
  | [], _ => none
  | p :: rest, d => if p.1 = d then some p.2 else lookupBlob rest d

/-- Modelled from the spec: `LoadEntry(cas, digest)` (node.go is not
among the sources) opens the blob at `digest` and decodes it as an
Entry; a missing or undecodable blob is a hard failure for the caller. -/
def LoadEntry (cas : GcCas) (digest : String) : Except GcError Entry :=
  match lookupBlob cas digest with
  | none => .error .loadFailed
  | some none => .error .loadFailed
  | some (some e) => .ok e

/-- One element of the `cas.Enumerate()` stream the GC consumes: a
`CasEntry` carrying either an item or an error. -/
inductive CasStreamEntry where
  | item (s : String)
  | fail
  deriving DecidableEq

/-- One element of the `nodes.Enumerate()` stream: a `NodeEntry` whose
`Node.Entry` field is the root Entry digest, or an error entry. -/
inductive NodeStreamEntry where
  | node (entry : String)
  | fail
  deriving DecidableEq

/-- The first loop of `gcRun.main`: every enumerated digest is recorded
as untagged; an error entry sets the fsck bit and aborts the run. -/
def buildCasMap : GoMap → List CasStreamEntry → Except GcError GoMap
  | m, [] => .ok m
  | _, .fail :: _ => .error .enumerateFailed
  | m, .item s :: rest => buildCasMap (mapSet m s false) rest

/-- The second loop of `gcRun.main`: each node's root Entry digest is
tagged reachable (inserting the key when absent), its Entry tree is
loaded and `TagRecurse`d; a stream error or a load failure aborts. -/
def markNodes (cas : GcCas) : GoMap → List NodeStreamEntry → Except GcError GoMap
  | m, [] => .ok m
  | _, .fail :: _ => .error .nodesFailed
  | m, .node d :: rest =>
    match LoadEntry cas d with
    | .error e => .error e
    | .ok entry => markNodes cas (TagRecurse (mapSet m d true) entry) rest

/-- The orphan collection loop: every digest still untagged. -/
def orphansOf (m : GoMap) : List String :=
  (m.filter (fun p => !p.2)).map (fun p => p.1)

def eraseBlob : GcCas → String → Option GcCas
  | [], _ => none
  | p :: rest, d => if p.1 = d then some rest else (eraseBlob rest d).map (p :: ·)

/-- `casTable.Remove` as observed through the interface the GC uses:
validate the digest syntax, then move the blob out of the store; fails
when the digest is malformed or the blob absent. -/
def gcRemove (cas : GcCas) (d : String) : Option GcCas :=
  if validDigest d then eraseBlob cas d else none

/-- The sweep loop of `gcRun.main`: remove every orphan via the Blob
Store's `Remove`; a removal failure sets the fsck bit and aborts the
run. Returns store, trashed digests, fsck bit, failure flag. -/
def sweepOrphans : GcCas → List String → List String → GcCas × List String × Bool × Bool
  | cas, tr, [] => (cas, tr, false, false)
  | cas, tr, d :: rest =>
    match gcRemove cas d with
    | none => (cas, tr, true, true)
    | some cas2 => sweepOrphans cas2 (tr ++ [d]) rest

/-- The observable outcome of one GC run. -/
structure GcResult where
  cas : GcCas
  trash : List String
  fsck : Bool
  failed : Bool

/-- `gcRun.main`: mark over both stores, then sweep. -/
def gcMain (cas : GcCas) (casStream : List CasStreamEntry)
    (nodeStream : List NodeStreamEntry) : GcResult :=
  match buildCasMap [] casStream with
  | .error _ => ⟨cas, [], true, true⟩
  | .ok m =>
    match markNodes cas m nodeStream with
    | .error _ => ⟨cas, [], false, true⟩
    | .ok m2 =>
      let r := sweepOrphans cas [] (orphansOf m2)
      ⟨r.1, r.2.1, r.2.2.1, r.2.2.2⟩

/-- The canonical successful enumeration stream over a store. -/
def casStreamOf (cas : GcCas) : List CasStreamEntry :=
  cas.map (fun p => .item p.1)

/-- A GC run on a store whose enumeration succeeds: `Enumerate` yields
exactly the stored digests. -/
def gcRun (cas : GcCas) (nodeStream : List NodeStreamEntry) : GcResult :=
  gcMain cas (casStreamOf cas) nodeStream

/-- Everything the mark phase tags: each node's root digest plus the
digests of its loaded Entry tree. -/
def markedDigests (cas : GcCas) : List NodeStreamEntry → List String
  | [] => []
  | .fail :: rest => markedDigests cas rest
  | .node d :: rest =>
    d :: (match LoadEntry cas d with
          | .ok e => entryDigests e
          | .error _ => []) ++ markedDigests cas rest

/-- A node stream on which the mark phase succeeds: no error entries and
every node's Entry tree loads. -/
def goodNodes (cas : GcCas) : List NodeStreamEntry → Bool
  | [] => true
  | .fail :: _ => false
  | .node d :: rest =>
    (match LoadEntry cas d with
     | .ok _ => true
     | .error _ => false) && goodNodes cas rest

/-- Boolean list membership for strings. -/
def memb (d : String) : List String → Bool
  | [] => false
  | x :: rest => (x = d) || memb d rest

/-! ### Map and marking lemmas -/

theorem mapGet_mapSet (m : GoMap) (k k' : String) (v : Bool) :
    mapGet (mapSet m k v) k' = if k' = k then some v else mapGet m k' := by
  induction m with
  | nil =>
    by_cases h : k' = k
    · simp [mapSet, mapGet, h]
    · have h2 : ¬(k = k') := fun hc => h hc.symm
      simp [mapSet, mapGet, h, h2]
  | cons p rest ih =>
    by_cases hp : p.1 = k
    · by_cases h : k' = k
      · simp [mapSet, mapGet, hp, h]
      · have h2 : ¬(k = k') := fun hc => h hc.symm
        have h3 : ¬(p.1 = k') := by rw [hp]; exact h2
        simp [mapSet, mapGet, hp, h, h2, h3]
    · by_cases hq : p.1 = k'
      · have hkk : ¬(k' = k) := fun hc => hp (by rw [hq, hc])
        simp [mapSet, mapGet, hp, hq, hkk]
      · simp [mapSet, mapGet, hp, hq, ih]

theorem mem_mapKeys_mapSet (m : GoMap) (k : String) (v : Bool) (x : String) :
    x ∈ (mapSet m k v).map Prod.fst ↔ x ∈ m.map Prod.fst ∨ x = k := by
  induction m with
  | nil => simp [mapSet]
  | cons p rest ih =>
    by_cases hp : p.1 = k
    · simp only [mapSet, if_pos hp, List.map_cons, List.mem_cons, ih]
      rw [← hp]
      tauto
    · simp only [mapSet, if_neg hp, List.map_cons, List.mem_cons, ih]
      tauto

theorem nodup_mapKeys_mapSet (m : GoMap) (k : String) (v : Bool)
    (h : (m.map Prod.fst).Nodup) : ((mapSet m k v).map Prod.fst).Nodup := by
  induction m with
  | nil => simp [mapSet]
  | cons p rest ih =>
    simp only [List.map_cons, List.nodup_cons] at h
    by_cases hp : p.1 = k
    · simp only [mapSet, if_pos hp, List.map_cons, List.nodup_cons]
      exact ⟨by rw [← hp]; exact h.1, h.2⟩
    · simp only [mapSet, if_neg hp, List.map_cons, List.nodup_cons]
      refine ⟨?_, ih h.2⟩
      intro hc
      rcases (mem_mapKeys_mapSet rest k v p.1).mp hc with h2 | h2
      · exact h.1 h2
      · exact hp h2

mutual

theorem mapGet_TagRecurse (m : GoMap) (e : Entry) (d : String) :
    mapGet (TagRecurse m e) d =
      if d ∈ entryDigests e then some true else mapGet m d := by
  match e with
  | .mk s files =>
    rw [TagRecurse, entryDigests, mapGet_tagFiles]
    by_cases hf : d ∈ filesDigests files
    · simp [hf]
    · by_cases hs : s = ""
      · simp [hs, hf]
      · by_cases hd : d = s
        · simp [hs, hd, hf, mapGet_mapSet]
        · simp [hs, hd, hf, mapGet_mapSet, Ne.symm hd]

theorem mapGet_tagFiles (m : GoMap) (fs : List (String × Entry)) (d : String) :
    mapGet (tagFiles m fs) d =
      if d ∈ filesDigests fs then some true else mapGet m d := by
  match fs with
  | [] => simp [tagFiles, filesDigests]
  | (n, e) :: rest =>
    rw [tagFiles, filesDigests, mapGet_tagFiles, mapGet_TagRecurse]
    by_cases hr : d ∈ filesDigests rest
    · simp [hr]
    · by_cases he : d ∈ entryDigests e
      · simp [hr, he]
      · simp [hr, he]

end

mutual

theorem nodup_TagRecurse (m : GoMap) (e : Entry)
    (h : (m.map Prod.fst).Nodup) : ((TagRecurse m e).map Prod.fst).Nodup := by
  match e with
  | .mk s files =>
    rw [TagRecurse]
    refine nodup_tagFiles _ files ?_
    by_cases hs : s = ""
    · simpa [hs] using h
    · simpa [hs] using nodup_mapKeys_mapSet m s true h

theorem nodup_tagFiles (m : GoMap) (fs : List (String × Entry))
    (h : (m.map Prod.fst).Nodup) : ((tagFiles m fs).map Prod.fst).Nodup := by
  match fs with
  | [] => simpa [tagFiles] using h
  | (n, e) :: rest =>
    rw [tagFiles]
    exact nodup_tagFiles _ rest (nodup_TagRecurse m e h)

end

theorem markNodes_ok (cas : GcCas) (ns : List NodeStreamEntry)
    (hgood : goodNodes cas ns = true) : ∀ m : GoMap,
    ∃ m2, markNodes cas m ns = .ok m2 ∧
      (∀ d, mapGet m2 d =
        if d ∈ markedDigests cas ns then some true else mapGet m d) ∧
      ((m.map Prod.fst).Nodup → (m2.map Prod.fst).Nodup) := by
  induction ns with
  | nil =>
    intro m
    exact ⟨m, rfl, by intro d; simp [markedDigests], fun h => h⟩
  | cons x rest ih =>
    cases x with
    | fail => rw [goodNodes] at hgood; cases hgood
    | node dg =>
      rw [goodNodes, Bool.and_eq_true] at hgood
      obtain ⟨hload, hrest⟩ := hgood
      cases hle : LoadEntry cas dg with
      | error e => rw [hle] at hload; cases hload
      | ok entry =>
        intro m
        obtain ⟨m2, heq, hget, hnd⟩ := ih hrest (TagRecurse (mapSet m dg true) entry)
        refine ⟨m2, ?_, ?_, ?_⟩
        · rw [markNodes, hle]
          exact heq
        · intro d
          rw [hget d, markedDigests, hle]
          by_cases h1 : d ∈ markedDigests cas rest
          · simp [h1]
          · rw [mapGet_TagRecurse, mapGet_mapSet]
            by_cases h2 : d ∈ entryDigests entry
            · simp [h1, h2]
            · by_cases h3 : d = dg
              · simp [h1, h2, h3]
              · simp [h1, h2, h3]
        · intro hn
          exact hnd (nodup_TagRecurse _ entry (nodup_mapKeys_mapSet m dg true hn))

theorem buildCasMap_items (l : List String) : ∀ m : GoMap,
    buildCasMap m (l.map CasStreamEntry.item) =
      .ok (l.foldl (fun acc s => mapSet acc s false) m) := by
  induction l with
  | nil => intro m; rfl
  | cons s rest ih => intro m; rw [List.map_cons, buildCasMap, ih]; rfl

theorem mapSet_fresh (m : GoMap) (k : String) (v : Bool)
    (h : mapGet m k = none) : mapSet m k v = m ++ [(k, v)] := by
  induction m with
  | nil => rfl
  | cons p rest ih =>
    by_cases hp : p.1 = k
    · rw [mapGet, if_pos hp] at h; cases h
    · rw [mapGet, if_neg hp] at h
      simp [mapSet, hp, ih h]

theorem mapGet_append_singleton_none (m : GoMap) (k x : String) (v : Bool)
    (h : mapGet m x = none) (hne : k ≠ x) : mapGet (m ++ [(k, v)]) x = none := by
  induction m with
  | nil => simp [mapGet, hne]
  | cons p rest ih =>
    by_cases hp : p.1 = x
    · rw [mapGet, if_pos hp] at h; cases h
    · rw [mapGet, if_neg hp] at h
      simpa [mapGet, hp] using ih h

theorem foldl_mapSet_false (l : List String) : ∀ m : GoMap,
    (∀ s ∈ l, mapGet m s = none) → l.Nodup →
    l.foldl (fun acc s => mapSet acc s false) m = m ++ l.map (fun s => (s, false)) := by
  induction l with
  | nil => intro m _ _; simp
  | cons s rest ih =>
    intro m hfresh hnd
    rw [List.nodup_cons] at hnd
    rw [List.foldl_cons, mapSet_fresh m s false (hfresh s (List.mem_cons_self s rest))]
    rw [ih (m ++ [(s, false)]) ?_ hnd.2]
    · simp
    · intro x hx
      exact mapGet_append_singleton_none m s x false
        (hfresh x (List.mem_cons_of_mem s hx)) (fun hc => hnd.1 (hc ▸ hx))

theorem mapGet_initMap (l : List String) (d : String) :
    mapGet (l.map (fun s => (s, false))) d = if d ∈ l then some false else none := by
  induction l with
  | nil => simp [mapGet]
  | cons s rest ih =>
    by_cases h : s = d
    · simp [mapGet, h]
    · have h2 : ¬(d = s) := fun hc => h hc.symm
      simp [mapGet, h, h2, ih]

theorem orphansOf_subset_keys (m : GoMap) (x : String)
    (h : x ∈ orphansOf m) : x ∈ m.map Prod.fst := by
  obtain ⟨p, hp, hpx⟩ := List.mem_map.mp h
  exact List.mem_map.mpr ⟨p, List.mem_of_mem_filter hp, hpx⟩

theorem mem_orphansOf (m : GoMap) (hn : (m.map Prod.fst).Nodup) (d : String) :
    d ∈ orphansOf m ↔ mapGet m d = some false := by
  induction m with
  | nil => simp [orphansOf, mapGet]
  | cons p rest ih =>
    simp only [List.map_cons, List.nodup_cons] at hn
    by_cases hp : p.1 = d
    · cases hv : p.2 with
      | false =>
        simp only [orphansOf, List.filter_cons, hv, mapGet, if_pos hp]
        simp [hp]
      | true =>
        simp only [orphansOf, List.filter_cons, hv, mapGet, if_pos hp]
        have : d ∉ orphansOf rest := by
          intro hc
          exact hn.1 (hp ▸ orphansOf_subset_keys rest d hc)
        simp only [Bool.not_true, orphansOf] at this ⊢
        simp [this]
    · have step : d ∈ orphansOf (p :: rest) ↔ d ∈ orphansOf rest := by
        cases hv : p.2 with
        | false =>
          have hp2 : ¬(d = p.1) := fun hc => hp hc.symm
          simp only [orphansOf, List.filter_cons, hv]
          simp [hp, hp2]
        | true => simp [orphansOf, List.filter_cons, hv]
      rw [step, mapGet, if_neg hp, ih hn.2]

theorem orphansOf_nodup (m : GoMap) (hn : (m.map Prod.fst).Nodup) :
    (orphansOf m).Nodup :=
  hn.sublist (List.Sublist.map Prod.fst (List.filter_sublist m))

theorem memb_iff (d : String) (l : List String) : memb d l = true ↔ d ∈ l := by
  induction l with
  | nil => simp [memb]
  | cons x rest ih =>
    rw [memb, Bool.or_eq_true, ih, decide_eq_true_eq, List.mem_cons]
    constructor
    · rintro (h | h)
      · exact Or.inl h.symm
      · exact Or.inr h
    · rintro (h | h)
      · exact Or.inl h.symm
      · exact Or.inr h

theorem memb_false_of_not_mem (d : String) (l : List String) (h : d ∉ l) :
    memb d l = false := by
  cases hm : memb d l
  · rfl
  · exact absurd ((memb_iff d l).mp hm) h

theorem filter_ne_of_not_mem (cas : GcCas) (d : String)
    (h : d ∉ cas.map Prod.fst) : cas.filter (fun p => p.1 != d) = cas := by
  refine List.filter_eq_self.mpr ?_
  intro p hp
  simp only [bne_iff_ne, ne_eq]
  intro hc
  exact h (List.mem_map.mpr ⟨p, hp, hc⟩)

theorem eraseBlob_eq_filter (cas : GcCas) (d : String)
    (hn : (cas.map Prod.fst).Nodup) (hd : d ∈ cas.map Prod.fst) :
    eraseBlob cas d = some (cas.filter (fun p => p.1 != d)) := by
  induction cas with
  | nil => simp at hd
  | cons q rest ih =>
    simp only [List.map_cons, List.nodup_cons] at hn
    by_cases hq : q.1 = d
    · rw [eraseBlob, if_pos hq]
      have hdr : d ∉ rest.map Prod.fst := hq ▸ hn.1
      simp [List.filter_cons, hq, filter_ne_of_not_mem rest d hdr]
    · rw [eraseBlob, if_neg hq]
      have hdm : d ∈ rest.map Prod.fst := by
        rw [List.map_cons] at hd
        rcases List.mem_cons.mp hd with h | h
        · exact absurd h.symm hq
        · exact h
      rw [ih hn.2 hdm]
      simp [List.filter_cons, hq]

theorem mem_filter_keys (cas : GcCas) (d x : String)
    (hx : x ∈ cas.map Prod.fst) (hne : x ≠ d) :
    x ∈ (cas.filter (fun p => p.1 != d)).map Prod.fst := by
  obtain ⟨p, hp, hpx⟩ := List.mem_map.mp hx
  refine List.mem_map.mpr ⟨p, List.mem_filter.mpr ⟨hp, ?_⟩, hpx⟩
  simp only [bne_iff_ne, ne_eq]
  rw [hpx]
  exact hne

theorem sweepOrphans_ok (O : List String) : ∀ (cas : GcCas) (tr : List String),
    O.Nodup → (cas.map Prod.fst).Nodup →
    (∀ d ∈ O, validDigest d = true ∧ d ∈ cas.map Prod.fst) →
    sweepOrphans cas tr O =
      (cas.filter (fun p => !memb p.1 O), tr ++ O, false, false) := by
  induction O with
  | nil =>
    intro cas tr _ _ _
    simp [sweepOrphans, memb]
  | cons d rest ih =>
    intro cas tr hO hcn hcond
    obtain ⟨hdv, hdm⟩ := hcond d (List.mem_cons_self d rest)
    rw [List.nodup_cons] at hO
    have her : gcRemove cas d = some (cas.filter (fun p => p.1 != d)) := by
      rw [gcRemove, if_pos hdv, eraseBlob_eq_filter cas d hcn hdm]
    have hcn2 : ((cas.filter (fun p => p.1 != d)).map Prod.fst).Nodup :=
      hcn.sublist (List.Sublist.map Prod.fst (List.filter_sublist cas))
    have hcond2 : ∀ x ∈ rest, validDigest x = true ∧
        x ∈ (cas.filter (fun p => p.1 != d)).map Prod.fst := by
      intro x hx
      obtain ⟨hv, hm⟩ := hcond x (List.mem_cons_of_mem d hx)
      exact ⟨hv, mem_filter_keys cas d x hm (fun hc => hO.1 (hc ▸ hx))⟩
    have hfeq : (cas.filter (fun p => p.1 != d)).filter (fun p => !memb p.1 rest)
        = cas.filter (fun p => !memb p.1 (d :: rest)) := by
      rw [List.filter_filter]
      refine List.filter_congr ?_
      intro p hp
      by_cases hc : p.1 = d
      · simp [memb, hc]
      · have hc2 : ¬(d = p.1) := fun h => hc h.symm
        simp [memb, hc, hc2, Bool.and_comm]
    have htr : (tr ++ [d]) ++ rest = tr ++ d :: rest := by simp
    rw [sweepOrphans, her]
    show sweepOrphans (cas.filter (fun p => p.1 != d)) (tr ++ [d]) rest
      = (cas.filter (fun p => !memb p.1 (d :: rest)), tr ++ d :: rest, false, false)
    rw [ih _ _ hO.2 hcn2 hcond2, hfeq, htr]

/-- C1: mark-sweep exactness. On a store whose enumeration succeeds and
whose every node tree loads, GC succeeds and removes exactly the digests
that were enumerated in the first pass and never marked reachable: every
digest reachable from a node's root Entry digest or its `TagRecurse`
traversal stays in the store, and a reachable digest that was never
enumerated (a dangling reference) is silently tolerated — neither
created, nor removed, nor reported as an error. -/
theorem gc_mark_sweep_exact (cas : GcCas) (ns : List NodeStreamEntry)
    (hnodup : (cas.map Prod.fst).Nodup)
    (hvalid : ∀ d ∈ cas.map Prod.fst, validDigest d = true)
    (hgood : goodNodes cas ns = true) :
    (gcRun cas ns).failed = false ∧
    (gcRun cas ns).cas = cas.filter (fun p => memb p.1 (markedDigests cas ns)) ∧
    (∀ d, d ∈ (gcRun cas ns).trash ↔
      (d ∈ cas.map Prod.fst ∧ d ∉ markedDigests cas ns)) ∧
    (∀ d, d ∈ markedDigests cas ns → d ∈ cas.map Prod.fst →
      d ∈ (gcRun cas ns).cas.map Prod.fst) ∧
    (∀ d, d ∈ markedDigests cas ns → d ∉ cas.map Prod.fst →
      d ∉ (gcRun cas ns).cas.map Prod.fst ∧ d ∉ (gcRun cas ns).trash) := by
  have hbuild : buildCasMap [] (casStreamOf cas)
      = .ok ((cas.map Prod.fst).map (fun s => (s, false))) := by
    have h0 : casStreamOf cas = (cas.map Prod.fst).map CasStreamEntry.item := by
      simp [casStreamOf, List.map_map]
    rw [h0, buildCasMap_items]
    rw [foldl_mapSet_false _ [] (by intro s _; rfl) hnodup]
    simp
  obtain ⟨m2, hmark, hget, hnd⟩ :=
    markNodes_ok cas ns hgood ((cas.map Prod.fst).map (fun s => (s, false)))
  have hm2keys : (m2.map Prod.fst).Nodup := by
    refine hnd ?_
    have : ((cas.map Prod.fst).map (fun s => (s, false))).map Prod.fst
        = cas.map Prod.fst := by
      simp [List.map_map]
    rw [this]
    exact hnodup
  have hget2 : ∀ d, mapGet m2 d =
      if d ∈ markedDigests cas ns then some true
      else if d ∈ cas.map Prod.fst then some false else none := by
    intro d
    rw [hget d, mapGet_initMap]
  have horph : ∀ d, d ∈ orphansOf m2 ↔
      (d ∈ cas.map Prod.fst ∧ d ∉ markedDigests cas ns) := by
    intro d
    rw [mem_orphansOf m2 hm2keys d, hget2 d]
    by_cases h1 : d ∈ markedDigests cas ns <;>
      by_cases h2 : d ∈ cas.map Prod.fst <;> simp [h1, h2]
  have horphn : (orphansOf m2).Nodup := orphansOf_nodup m2 hm2keys
  have hcond : ∀ d ∈ orphansOf m2, validDigest d = true ∧ d ∈ cas.map Prod.fst := by
    intro d hd
    have h := (horph d).mp hd
    exact ⟨hvalid d h.1, h.1⟩
  have hsweep := sweepOrphans_ok (orphansOf m2) cas [] horphn hnodup hcond
  have hrun : gcRun cas ns =
      ⟨cas.filter (fun p => !memb p.1 (orphansOf m2)), orphansOf m2, false, false⟩ := by
    rw [gcRun, gcMain, hbuild]
    simp only [hmark, hsweep, List.nil_append]
  have hfilt : cas.filter (fun p => !memb p.1 (orphansOf m2))
      = cas.filter (fun p => memb p.1 (markedDigests cas ns)) := by
    refine List.filter_congr ?_
    intro p hp
    have hpk : p.1 ∈ cas.map Prod.fst := List.mem_map.mpr ⟨p, hp, rfl⟩
    by_cases hm : p.1 ∈ markedDigests cas ns
    · have h1 : p.1 ∉ orphansOf m2 := fun hc => ((horph p.1).mp hc).2 hm
      rw [memb_false_of_not_mem _ _ h1, (memb_iff _ _).mpr hm]
      rfl
    · have h1 : p.1 ∈ orphansOf m2 := (horph p.1).mpr ⟨hpk, hm⟩
      rw [(memb_iff _ _).mpr h1, memb_false_of_not_mem _ _ hm]
      rfl
  refine ⟨by rw [hrun], by rw [hrun]; exact hfilt, ?_, ?_, ?_⟩
  · intro d
    rw [hrun]
    exact horph d
  · intro d hm hk
    rw [hrun, hfilt]
    obtain ⟨p, hp, hpd⟩ := List.mem_map.mp hk
    refine List.mem_map.mpr ⟨p, List.mem_filter.mpr ⟨hp, ?_⟩, hpd⟩
    rw [hpd]
    exact (memb_iff d (markedDigests cas ns)).mpr hm
  · intro d hm hk
    rw [hrun]
    constructor
    · intro hc
      obtain ⟨p, hp, hpd⟩ := List.mem_map.mp hc
      exact hk (List.mem_map.mpr ⟨p, List.mem_of_mem_filter hp, hpd⟩)
    · intro hc
      exact hk ((horph d).mp hc).1

theorem buildCasMap_no_fail (stream : List CasStreamEntry)
    (h : ∀ s ∈ stream, s ≠ CasStreamEntry.fail) : ∀ m : GoMap,
    ∃ m2, buildCasMap m stream = .ok m2 := by
  induction stream with
  | nil => exact fun m => ⟨m, rfl⟩
  | cons x rest ih =>
    cases x with
    | fail => exact absurd rfl (h _ (List.mem_cons_self _ _))
    | item s =>
      intro m
      obtain ⟨m2, h2⟩ := ih (fun t ht => h t (List.mem_cons_of_mem _ ht)) (mapSet m s false)
      exact ⟨m2, h2⟩

theorem goodNodes_false_of_bad (cas : GcCas) (ns : List NodeStreamEntry)
    (h : NodeStreamEntry.fail ∈ ns ∨
      ∃ d, NodeStreamEntry.node d ∈ ns ∧ ∃ e, LoadEntry cas d = .error e) :
    goodNodes cas ns = false := by
  induction ns with
  | nil =>
    rcases h with h | ⟨d, h, _⟩ <;> simp at h
  | cons x rest ih =>
    cases x with
    | fail => rfl
    | node dg =>
      rw [goodNodes]
      rcases h with hf | ⟨d, hd, e, he⟩
      · have hfr : NodeStreamEntry.fail ∈ rest := by
          rcases List.mem_cons.mp hf with h1 | h1
          · cases h1
          · exact h1
        rw [ih (Or.inl hfr)]
        simp
      · rcases List.mem_cons.mp hd with heq | hmem
        · have hde : d = dg := by injection heq
          rw [hde] at he
          rw [he]
          simp
        · rw [ih (Or.inr ⟨d, hmem, e, he⟩)]
          simp

theorem markNodes_fails (cas : GcCas) : ∀ (ns : List NodeStreamEntry),
    goodNodes cas ns = false → ∀ m : GoMap, ∃ e, markNodes cas m ns = .error e
  | [], hbad => by rw [goodNodes] at hbad; cases hbad
  | .fail :: rest, _ => fun m => ⟨.nodesFailed, rfl⟩
  | .node dg :: rest, hbad => fun m => by
    cases hle : LoadEntry cas dg with
    | error e => exact ⟨e, by rw [markNodes, hle]⟩
    | ok entry =>
      have hrest : goodNodes cas rest = false := by
        rw [goodNodes, hle] at hbad
        simpa using hbad
      obtain ⟨e, he⟩ := markNodes_fails cas rest hrest (TagRecurse (mapSet m dg true) entry)
      exact ⟨e, by rw [markNodes, hle]; exact he⟩

/-- C2: a mark-phase failure — an error entry in the Node Store
enumeration, or a `LoadEntry` failure for any node's root Entry digest —
aborts the GC run with an error before the sweep starts: no `Remove` is
issued and the Blob Store's set of stored blobs is unchanged. -/
theorem gc_mark_failure_aborts (cas : GcCas) (casStream : List CasStreamEntry)
    (ns : List NodeStreamEntry)
    (hcas : ∀ s ∈ casStream, s ≠ CasStreamEntry.fail)
    (hbad : NodeStreamEntry.fail ∈ ns ∨
      ∃ d, NodeStreamEntry.node d ∈ ns ∧ ∃ e, LoadEntry cas d = .error e) :
    (gcMain cas casStream ns).failed = true ∧
    (gcMain cas casStream ns).cas = cas ∧
    (gcMain cas casStream ns).trash = [] := by
  obtain ⟨m, hm⟩ := buildCasMap_no_fail casStream hcas []
  have hbad2 := goodNodes_false_of_bad cas ns hbad
  obtain ⟨e, he⟩ := markNodes_fails cas ns hbad2 m
  rw [gcMain, hm]
  simp [he]

/-- Concrete digests for witnesses. -/
def digA : String := "aaaaaaaaaaaaaaaaaaaaaaaaaaaaaaaaaaaaaaaa"

def digB : String := "bbbbbbbbbbbbbbbbbbbbbbbbbbbbbbbbbbbbbbbb"

def digT : String := "cccccccccccccccccccccccccccccccccccccccc"

def digD : String := "dddddddddddddddddddddddddddddddddddddddd"

def digE : String := "eeeeeeeeeeeeeeeeeeeeeeeeeeeeeeeeeeeeeeee"

/-- The Entry tree of the spec's example archive, plus one dangling
reference: `file1 → digA`, `dir1/dir2/file2 → digB`, `ghost → digD`
where `digD` is not stored. -/
def entryTree : Entry :=
  .mk "" [("file1", .mk digA []),
          ("dir1", .mk "" [("dir2", .mk "" [("file2", .mk digB [])])]),
          ("ghost", .mk digD [])]

/-- A store holding the two content blobs, the Entry-tree blob and one
orphan blob `digE`. -/
def gcCas1 : GcCas := [(digA, none), (digB, none), (digT, some entryTree), (digE, none)]

/-- One node pointing at the Entry tree. -/
def gcNs1 : List NodeStreamEntry := [.node digT]

/-- Witness for C1 on `gcCas1`: the run succeeds, sweeps exactly the
orphan `digE`, keeps every reachable blob, and silently tolerates the
dangling reference `digD`. -/
theorem gc_mark_sweep_exact_witness :
    (gcRun gcCas1 gcNs1).failed = false ∧
    (gcRun gcCas1 gcNs1).cas =
      gcCas1.filter (fun p => memb p.1 (markedDigests gcCas1 gcNs1)) ∧
    (digE ∈ (gcRun gcCas1 gcNs1).trash ↔
      (digE ∈ gcCas1.map Prod.fst ∧ digE ∉ markedDigests gcCas1 gcNs1)) ∧
    (digA ∈ markedDigests gcCas1 gcNs1 → digA ∈ gcCas1.map Prod.fst →
      digA ∈ (gcRun gcCas1 gcNs1).cas.map Prod.fst) ∧
    (digD ∈ markedDigests gcCas1 gcNs1 → digD ∉ gcCas1.map Prod.fst →
      digD ∉ (gcRun gcCas1 gcNs1).cas.map Prod.fst ∧
      digD ∉ (gcRun gcCas1 gcNs1).trash) := by
  obtain ⟨h1, h2, h3, h4, h5⟩ :=
    gc_mark_sweep_exact gcCas1 gcNs1 (by decide) (by decide) (by decide)
  exact ⟨h1, h2, h3 digE, h4 digA, h5 digD⟩

/-- A one-blob store and a node whose Entry tree cannot be loaded. -/
def gcCas2 : GcCas := [(digA, none)]

def gcNs2 : List NodeStreamEntry := [.node digB]

/-- Witness for C2: a GC run over `gcCas2` whose mark phase fails on the
unloadable node aborts with the store untouched. -/
theorem gc_mark_failure_aborts_witness :
    (gcMain gcCas2 (casStreamOf gcCas2) gcNs2).failed = true ∧
    (gcMain gcCas2 (casStreamOf gcCas2) gcNs2).cas = gcCas2 ∧
    (gcMain gcCas2 (casStreamOf gcCas2) gcNs2).trash = [] := by
  refine gc_mark_failure_aborts gcCas2 (casStreamOf gcCas2) gcNs2 ?_ ?_
  · decide
  · exact Or.inr ⟨digB, List.mem_singleton.mpr rfl, GcError.loadFailed, rfl⟩

/-! ### The command entry gate (`CommonFlag` in `main.go`) -/

inductive CmdError where
  | mustProvideRoot
  | fsckNeeded
  deriving DecidableEq

/-- `CommonFlag` from `main.go`, over the state its fsck gate consults:
the `-root` flag value and the store with its persisted `need_fsck`
marker. The filesystem steps (`filepath.Abs`, `os.MkdirAll`,
`MakeCasTable`) are modelled as succeeding; the claim concerns the gate
`if cas.WarnIfFsckIsNeeded() && !bypassFsck` that follows them. -/
def CommonFlag (root : String) (createRoot bypassFsck : Bool) (cas : CasFs) :
    Except CmdError CasFs :=
  if root = "" then .error .mustProvideRoot
  else if WarnIfFsckIsNeeded cas && !bypassFsck then .error .fsckNeeded
  else .ok cas

/-- C8: whenever the persisted `need_fsck` marker is set and the fsck
bypass is not requested, opening the store through `CommonFlag` fails
with the hard "fsck needed" refusal instead of returning a usable store,
for every root and command configuration. -/
theorem commonFlag_fsck_gate (root : String) (createRoot : Bool) (cas : CasFs)
    (hroot : root ≠ "") (hmark : cas.needFsck = true) :
    CommonFlag root createRoot false cas = .error CmdError.fsckNeeded := by
  simp [CommonFlag, hroot, WarnIfFsckIsNeeded, hmark]

/-- Witness for C8 at a concrete root and a store whose marker is set. -/
theorem commonFlag_fsck_gate_witness :
    CommonFlag "/store" false false ⟨[], [], true⟩ = .error CmdError.fsckNeeded :=
  commonFlag_fsck_gate "/store" false ⟨[], [], true⟩ (by decide) rfl

end Dumbcas
